import Mathlib

set_option maxRecDepth 8000

/-! Verification development for the viber audio-analysis pipeline
(`src/src/lib.rs`).  Rust `f32`/`f64` arithmetic is modelled as exact real
(`ℝ`) or rational (`ℚ`) arithmetic, `usize` as `ℕ`, `i16` sample values as
`ℤ`.  The FFT (external `phastft` crate) is modelled as the textbook forward
DFT; WAV decoding (external `hound` crate) is modelled by passing the parse
outcome as a parameter.  The GPU renderer is an external collaborator and is
omitted from the state. -/

namespace Viber

/-! Frame segmentation (`process_audio_frames`, lib.rs 160-213).
`FRAME_SIZE = 1024`, `TARGET_FPS = 120.0`, `SAMPLE_RATE = 44100.0`. -/

/-- duration_seconds = samples.len() as f64 / SAMPLE_RATE (lib.rs 166). -/
def duration_seconds (len : ℕ) : ℚ := (len : ℚ) / 44100

/-- target_frames = (duration_seconds * TARGET_FPS) as usize (lib.rs 167). -/
def target_frames (len : ℕ) : ℕ := ⌊duration_seconds len * 120⌋₊

/-- hop_size = samples.len() / target_frames if target_frames > 0 else
FRAME_SIZE (lib.rs 168-172); integer (usize) division. -/
def hop_size (len : ℕ) : ℕ :=
  if 0 < target_frames len then len / target_frames len else 1024

/-- frame_count = (len - FRAME_SIZE) / hop_size + 1 if len >= FRAME_SIZE
else 0 (lib.rs 175-179). -/
def frame_count (len : ℕ) : ℕ :=
  if 1024 ≤ len then (len - 1024) / hop_size len + 1 else 0

/-- generate_hann_window (lib.rs 524-531):
`w[n] = 0.5 * (1 - cos(2*pi*n / (size - 1)))`. -/
noncomputable def generate_hann_window (size : ℕ) : List ℝ :=
  (List.range size).map fun (n : ℕ) =>
    0.5 * (1 - Real.cos ((2 * Real.pi * (n : ℝ)) / ((size - 1 : ℕ) : ℝ)))

/-- apply_hann_window (lib.rs 533-541): normalize each `i16` sample by
`i16::MAX = 32767` and multiply by the window coefficient. -/
noncomputable def apply_hann_window (frame : List ℤ) (window : List ℝ) : List ℝ :=
  List.zipWith (fun (s : ℤ) (w : ℝ) => ((s : ℝ) / 32767) * w) frame window

/-- process_audio_frames (lib.rs 160-213): slice frame `i` as
`samples[i*hop_size .. i*hop_size+1024)`, window it, and keep it only when
the span fits the buffer (`end_idx <= samples.len()`). -/
noncomputable def process_audio_frames (samples : List ℤ) : List (List ℝ) :=
  (List.range (frame_count samples.length)).filterMap fun frame_idx =>
    if frame_idx * hop_size samples.length + 1024 ≤ samples.length then
      some (apply_hann_window
        ((samples.drop (frame_idx * hop_size samples.length)).take 1024)
        (generate_hann_window 1024))
    else
      none

/-! Temporal smoother (`smooth_interpolate`, lib.rs 500-522) and the
pipeline state (`App`, lib.rs 16-97).  The `renderer` field of the Rust
struct is an external collaborator and is omitted. -/

/-- smooth_interpolate (lib.rs 500-522): reset `previous_bars` to zeros when
its length disagrees with `bin_size`, then linearly interpolate the first
`min bin_size target.len` slots; remaining slots of the freshly zeroed
output vector stay `0.0`. -/
noncomputable def smooth_interpolate (bin_size : ℕ)
    (previous_bars target_bars : List ℝ) (smoothing_factor : ℝ) : List ℝ :=
  let prev := if previous_bars.length ≠ bin_size
    then List.replicate bin_size (0 : ℝ) else previous_bars
  let actual_size := min bin_size target_bars.length
  (List.range bin_size).map fun i =>
    if i < actual_size then
      prev.getD i 0 * (1 - smoothing_factor) + target_bars.getD i 0 * smoothing_factor
    else 0

/-- App (lib.rs 16-25) without the external `renderer` field. -/
structure App where
  audio_frames : List (List ℝ)
  fft_results : List (List ℝ)
  frequency_bars : List (List ℝ)
  previous_bars : List ℝ
  audio_processed : Bool
  bin_size : ℕ

/-- get_frequency_bars (lib.rs 76-82). -/
noncomputable def get_frequency_bars (app : App) (frame_index : ℕ) : List ℝ :=
  if app.audio_processed ∧ frame_index < app.frequency_bars.length then
    app.frequency_bars.getD frame_index []
  else
    List.replicate app.bin_size 0

/-- get_total_frames (lib.rs 84-91). -/
def get_total_frames (app : App) : ℕ :=
  if app.audio_processed then app.frequency_bars.length else 0

/-- set_bin_size (lib.rs 93-97). -/
noncomputable def set_bin_size (app : App) (bin_size : ℕ) : App :=
  { app with bin_size := bin_size, previous_bars := List.replicate bin_size 0 }

/-- render (lib.rs 51-68): the smoothing step and the bar vector handed to
the renderer collaborator; returns the updated state and that vector. -/
noncomputable def render (app : App) (frame_index : ℕ)
    (smoothing_factor : ℝ) : App × List ℝ :=
  if app.audio_processed then
    let target_bars := if frame_index < app.frequency_bars.length then
        app.frequency_bars.getD frame_index []
      else
        List.replicate app.bin_size 0
    let smoothed_bars :=
      smooth_interpolate app.bin_size app.previous_bars target_bars smoothing_factor
    ({ app with previous_bars := smoothed_bars }, smoothed_bars)
  else
    (app, List.replicate app.bin_size 0)

/-! Dynamic range scaler (`apply_dynamic_scaling`, lib.rs 460-498). -/

/-- apply_dynamic_scaling (lib.rs 460-498): sort a copy ascending, read the
25th/75th/90th percentile-rank values and the maximum (defaults 0.0 when out
of range), then remap each raw value through the piecewise power-law with
epsilon guard 0.001 and clamp to at most 1.0. -/
noncomputable def apply_dynamic_scaling (raw_magnitudes : List ℝ)
    (num_bars : ℕ) : List ℝ :=
  let sorted_mags := List.insertionSort (· ≤ ·) raw_magnitudes
  let p25_idx := ⌊(num_bars : ℝ) * 0.25⌋₊
  let p75_idx := ⌊(num_bars : ℝ) * 0.75⌋₊
  let p90_idx := ⌊(num_bars : ℝ) * 0.90⌋₊
  let p25_val := sorted_mags.getD p25_idx 0
  let p75_val := sorted_mags.getD p75_idx 0
  let p90_val := sorted_mags.getD p90_idx 0
  let max_val := (sorted_mags.getLast?).getD 0
  (List.range num_bars).map fun i =>
    let mag := raw_magnitudes.getD i 0
    let scaled :=
      if mag ≤ p25_val then
        (mag / max p25_val 0.001) * 0.2
      else if mag ≤ p75_val then
        0.2 + ((mag - p25_val) / max (p75_val - p25_val) 0.001) ^ (1.5 : ℝ) * 0.4
      else if mag ≤ p90_val then
        0.6 + ((mag - p75_val) / max (p90_val - p75_val) 0.001) ^ (2.0 : ℝ) * 0.25
      else
        0.85 + ((mag - p90_val) / max (max_val - p90_val) 0.001) ^ (3.0 : ℝ) * 0.15
    min scaled 1

/-! Frequency boundary generation (`generate_log_frequencies`,
lib.rs 326-410). -/

/-- geometric band boundaries pushed by the source loops `for i in 1..=n`:
entry `i` is `lo * (hi/lo)^(i/n)` for `i = 1..n` (lib.rs 339-352). -/
noncomputable def geom_band (lo hi : ℝ) (n : ℕ) : List ℝ :=
  (List.range n).map fun (i : ℕ) => lo * (hi / lo) ^ (((i : ℝ) + 1) / (n : ℝ))

/-- generate_log_frequencies (lib.rs 326-410): curated perceptual bands for
64/32/16 bars, uniform logarithmic spacing otherwise. -/
noncomputable def generate_log_frequencies (min_freq max_freq : ℝ)
    (num_bars : ℕ) : List ℝ :=
  if num_bars = 64 then
    ((List.range 5).map fun (i : ℕ) => 20 + ((i : ℝ) / 4) * 80)
      ++ geom_band 100 500 20 ++ geom_band 500 4000 24 ++ geom_band 4000 20000 16
  else if num_bars = 32 then
    ((List.range 3).map fun (i : ℕ) => 20 + ((i : ℝ) / 2) * 80)
      ++ geom_band 100 500 10 ++ geom_band 500 4000 12 ++ geom_band 4000 20000 8
  else if num_bars = 16 then
    [20, 100] ++ geom_band 100 500 5 ++ geom_band 500 4000 6 ++ geom_band 4000 20000 4
  else
    (List.range (num_bars + 1)).map fun (i : ℕ) =>
      Real.exp (Real.log min_freq
        + (i : ℝ) * ((Real.log max_freq - Real.log min_freq) / (num_bars : ℝ)))

/-! Spectral analysis (`process_fft`, lib.rs 215-258), bar mapping
(`map_fft_to_bars` / `map_to_frequency_bars`, lib.rs 260-458) and the load
path (`process_audio_file`, lib.rs 100-158). -/

/-- dft_re models bin `k`'s real output of the external `phastft::fft_32`
forward transform as the textbook DFT of the real-valued frame. -/
noncomputable def dft_re (x : List ℝ) (k : ℕ) : ℝ :=
  ∑ n ∈ Finset.range x.length,
    x.getD n 0 * Real.cos (2 * Real.pi * (k : ℝ) * (n : ℝ) / (x.length : ℝ))

/-- dft_im models bin `k`'s imaginary output of the forward transform. -/
noncomputable def dft_im (x : List ℝ) (k : ℕ) : ℝ :=
  -∑ n ∈ Finset.range x.length,
    x.getD n 0 * Real.sin (2 * Real.pi * (k : ℝ) * (n : ℝ) / (x.length : ℝ))

/-- process_fft (lib.rs 215-258): for each windowed frame, run the forward
transform with zero imaginary input and store `sqrt(re^2 + im^2)` for every
one of the `frame.len()` bins — the zip of the full real and imaginary
output vectors, with no truncation. -/
noncomputable def process_fft (frames : List (List ℝ)) : List (List ℝ) :=
  frames.map fun frame =>
    (List.range frame.length).map fun (k : ℕ) =>
      Real.sqrt (dft_re frame k ^ 2 + dft_im frame k ^ 2)

/-- map_fft_to_bars (lib.rs 412-458): average the magnitudes of the bins in
each boundary band, consulting only bins below `nyquist_bin = 512` and below
the frame length, then apply the dynamic scaling. -/
noncomputable def map_fft_to_bars (fft_frame : List ℝ) (sample_rate : ℕ)
    (freq_boundaries : List ℝ) (num_bars : ℕ) : List ℝ :=
  if freq_boundaries.length < num_bars + 1 then
    List.replicate num_bars 0
  else
    apply_dynamic_scaling ((List.range num_bars).map fun (bar_idx : ℕ) =>
      let bin_start := min
        ⌊freq_boundaries.getD bar_idx 0 / ((sample_rate : ℝ) / 1024)⌋₊ 512
      let bin_end := max (min
        ⌊freq_boundaries.getD (bar_idx + 1) 0 / ((sample_rate : ℝ) / 1024)⌋₊ 512)
        bin_start
      let valid := (Finset.Icc bin_start bin_end).filter
        fun bin_idx => bin_idx < 512 ∧ bin_idx < fft_frame.length
      if 0 < valid.card then
        (∑ bin_idx ∈ valid, fft_frame.getD bin_idx 0) / (valid.card : ℝ)
      else 0) num_bars

/-- map_to_frequency_bars (lib.rs 260-324): map every stored spectral frame
to a bar frame using the boundary table for the configured `bin_size`. -/
noncomputable def map_to_frequency_bars (app : App) (sample_rate : ℕ) : App :=
  { app with frequency_bars := app.fft_results.map (fun fft_frame =>
      map_fft_to_bars fft_frame sample_rate
        (generate_log_frequencies 20 20000 app.bin_size) app.bin_size) }

/-- everyOther models `sample_vec.iter().step_by(2)` (lib.rs 125): the
left-channel samples of an interleaved stereo stream. -/
def everyOther {α : Type} : List α → List α
  | [] => []
  | [a] => [a]
  | a :: _ :: rest => a :: everyOther rest

/-- WavSpec: the header fields of the external `hound` WAV reader that the
pipeline consults. -/
structure WavSpec where
  channels : ℕ
  sample_rate : ℕ
  bits_per_sample : ℕ

/-- process_audio_file (lib.rs 100-158).  WAV decoding is external
(`hound`), so the parse outcome is passed in: either a header error, or a
header together with either a sample-read error or the samples.  The state
is mutated only on the all-success path; both error paths return the state
untouched together with the descriptive failure. -/
noncomputable def process_audio_file (app : App)
    (parse : Except String (WavSpec × Except String (List ℤ))) :
    App × Except String Unit :=
  match parse with
  | Except.error e => (app, Except.error ("Failed to read WAV file: " ++ e))
  | Except.ok (_spec, Except.error e) =>
      (app, Except.error ("Failed to read samples: " ++ e))
  | Except.ok (spec, Except.ok sample_vec) =>
      let mono_samples :=
        if spec.channels = 2 then everyOther sample_vec else sample_vec
      let app1 := { app with audio_frames := process_audio_frames mono_samples }
      let app2 := { app1 with fft_results := process_fft app1.audio_frames }
      let app3 := map_to_frequency_bars app2 spec.sample_rate
      ({ app3 with audio_processed := true }, Except.ok ())

/-- helper: a filterMap whose function is total on the list keeps its length. -/
theorem length_filterMap_of_isSome {α β : Type} (l : List α) (f : α → Option β)
    (h : ∀ a ∈ l, (f a).isSome) : (l.filterMap f).length = l.length := by
  induction l with
  | nil => rfl
  | cons a t ih =>
      rw [List.filterMap_cons]
      have ha := h a (List.mem_cons_self a t)
      cases hfa : f a with
      | none => rw [hfa] at ha; simp at ha
      | some b =>
          simp only [List.length_cons]
          rw [ih fun x hx => h x (List.mem_cons_of_mem a hx)]

theorem target_frames_eq (len : ℕ) : target_frames len = len * 120 / 44100 := by
  have : duration_seconds len * 120 = ((len * 120 : ℕ) : ℚ) / ((44100 : ℕ) : ℚ) := by
    unfold duration_seconds
    push_cast
    ring
  rw [target_frames, this, Nat.floor_div_eq_div]

theorem target_frames_le (len : ℕ) : target_frames len ≤ len := by
  rw [target_frames_eq]
  calc len * 120 / 44100 ≤ len * 44100 / 44100 :=
        Nat.div_le_div_right (Nat.mul_le_mul_left len (by norm_num))
    _ = len := Nat.mul_div_cancel len (by norm_num)

theorem hop_size_pos (len : ℕ) : 1 ≤ hop_size len := by
  unfold hop_size
  by_cases h : 0 < target_frames len
  · rw [if_pos h]
    exact (Nat.one_le_div_iff h).mpr (target_frames_le len)
  · rw [if_neg h]
    norm_num

/-! AudioFrame sample range (`apply_hann_window`, lib.rs 524-541). -/

/-- helper: every element of a zipWith comes from a pair of elements. -/
theorem exists_of_mem_zipWith {α β γ : Type} (f : α → β → γ) :
    ∀ (l1 : List α) (l2 : List β), ∀ y ∈ List.zipWith f l1 l2,
      ∃ a ∈ l1, ∃ b ∈ l2, y = f a b := by
  intro l1
  induction l1 with
  | nil => intro l2 y hy; simp at hy
  | cons a t ih =>
      intro l2 y hy
      cases l2 with
      | nil => simp at hy
      | cons b t2 =>
          rw [List.zipWith_cons_cons, List.mem_cons] at hy
          rcases hy with hy | hy
          · exact ⟨a, List.mem_cons_self a t, b, List.mem_cons_self b t2, hy⟩
          · obtain ⟨a', ha', b', hb', hy'⟩ := ih t2 y hy
            exact ⟨a', List.mem_cons_of_mem a ha', b', List.mem_cons_of_mem b hb', hy'⟩

/-- helper: every Hann window coefficient lies in [0, 1]. -/
theorem hann_window_coeff_bounds (size : ℕ) :
    ∀ w ∈ generate_hann_window size, 0 ≤ w ∧ w ≤ 1 := by
  intro w hw
  simp only [generate_hann_window, List.mem_map, List.mem_range] at hw
  obtain ⟨n, hn, rfl⟩ := hw
  have h1 := Real.neg_one_le_cos ((2 * Real.pi * (n : ℝ)) / ((size - 1 : ℕ) : ℝ))
  have h2 := Real.cos_le_one ((2 * Real.pi * (n : ℝ)) / ((size - 1 : ℕ) : ℝ))
  constructor <;> linarith

/-- helper: head of a nonempty map over a range. -/
theorem map_range_head {α : Type} (f : ℕ → α) (n : ℕ) (hn : 0 < n) :
    ((List.range n).map f).head? = some (f 0) := by
  cases n with
  | zero => omega
  | succ m => rw [List.range_succ_eq_map]; simp

/-- helper: last element of a nonempty map over a range. -/
theorem map_range_getLast {α : Type} (f : ℕ → α) (n : ℕ) (hn : 0 < n) :
    ((List.range n).map f).getLast? = some (f (n - 1)) := by
  cases n with
  | zero => omega
  | succ m =>
      rw [List.range_succ, List.map_append]
      simp

/-- helper: a map over a range is an ascending chain when the function is
strictly increasing on successive indices below the bound. -/
theorem chain_lt_map_range (f : ℕ → ℝ) (n : ℕ)
    (h : ∀ i, i + 1 < n → f i < f (i + 1)) :
    List.Chain' (· < ·) ((List.range n).map f) := by
  rw [List.chain'_map]
  cases n with
  | zero => simp
  | succ m =>
      rw [List.chain'_range_succ]
      intro i hi
      exact h i (by omega)

theorem geom_band_length (lo hi : ℝ) (n : ℕ) : (geom_band lo hi n).length = n := by
  simp [geom_band]

theorem geom_band_chain (lo hi : ℝ) (n : ℕ) (hlo : 0 < lo) (hr : 1 < hi / lo) :
    List.Chain' (· < ·) (geom_band lo hi n) := by
  apply chain_lt_map_range
  intro i hi2
  have hn : (0 : ℝ) < (n : ℝ) := by
    have hn0 : 0 < n := by omega
    exact_mod_cast hn0
  apply mul_lt_mul_of_pos_left _ hlo
  apply (Real.rpow_lt_rpow_left_iff hr).mpr
  rw [div_lt_div_iff_of_pos_right hn]
  push_cast
  linarith

theorem geom_band_head (lo hi : ℝ) (n : ℕ) (hn : 0 < n) :
    (geom_band lo hi n).head? = some (lo * (hi / lo) ^ (1 / (n : ℝ))) := by
  rw [geom_band, map_range_head _ n hn]
  norm_num

theorem geom_band_getLast (lo hi : ℝ) (n : ℕ) (hn : 0 < n) (hlo : lo ≠ 0) :
    (geom_band lo hi n).getLast? = some hi := by
  rw [geom_band, map_range_getLast _ n hn]
  congr 1
  have hone : (((n - 1 : ℕ) : ℝ) + 1) / (n : ℝ) = 1 := by
    rw [Nat.cast_sub hn]
    rw [div_eq_one_iff_eq (by exact_mod_cast hn.ne')]
    push_cast
    ring
  rw [hone, Real.rpow_one, mul_comm, div_mul_cancel₀ hi hlo]

theorem lt_geom_band_first (lo hi : ℝ) (n : ℕ) (hn : 0 < n) (hlo : 0 < lo)
    (hr : 1 < hi / lo) : lo < lo * (hi / lo) ^ (1 / (n : ℝ)) := by
  nth_rewrite 1 [← mul_one lo]
  apply mul_lt_mul_of_pos_left _ hlo
  rw [Real.one_lt_rpow_iff_of_pos (by linarith)]
  exact Or.inl ⟨hr, div_pos one_pos (by exact_mod_cast hn)⟩

theorem some_or_eq {α : Type} (a : α) (o : Option α) : (some a).or o = some a := rfl

/-- helper: properties of the curated band assembly
`A ++ (100..500, a bins) ++ (500..4000, b bins) ++ (4000..20000, c bins)`
shared by the 64/32/16 branches. -/
theorem curated_assembly (A : List ℝ) (a b c : ℕ)
    (ha : 0 < a) (hb : 0 < b) (hc : 0 < c)
    (hAchain : List.Chain' (· < ·) A) (hAhead : A.head? = some 20)
    (hAlast : A.getLast? = some 100) :
    List.Chain' (· < ·)
      (A ++ geom_band 100 500 a ++ geom_band 500 4000 b ++ geom_band 4000 20000 c) ∧
    (A ++ geom_band 100 500 a ++ geom_band 500 4000 b
      ++ geom_band 4000 20000 c).head? = some 20 ∧
    (A ++ geom_band 100 500 a ++ geom_band 500 4000 b
      ++ geom_band 4000 20000 c).getLast? = some 20000 := by
  have hB_chain := geom_band_chain 100 500 a (by norm_num) (by norm_num)
  have hC_chain := geom_band_chain 500 4000 b (by norm_num) (by norm_num)
  have hD_chain := geom_band_chain 4000 20000 c (by norm_num) (by norm_num)
  have hB_head := geom_band_head 100 500 a ha
  have hC_head := geom_band_head 500 4000 b hb
  have hD_head := geom_band_head 4000 20000 c hc
  have hB_last := geom_band_getLast 100 500 a ha (by norm_num)
  have hC_last := geom_band_getLast 500 4000 b hb (by norm_num)
  have hD_last := geom_band_getLast 4000 20000 c hc (by norm_num)
  have hj1 := lt_geom_band_first 100 500 a ha (by norm_num) (by norm_num)
  have hj2 := lt_geom_band_first 500 4000 b hb (by norm_num) (by norm_num)
  have hj3 := lt_geom_band_first 4000 20000 c hc (by norm_num) (by norm_num)
  refine ⟨?_, ?_, ?_⟩
  · refine List.chain'_append.mpr ⟨List.chain'_append.mpr
      ⟨List.chain'_append.mpr ⟨hAchain, hB_chain, ?_⟩, hC_chain, ?_⟩, hD_chain, ?_⟩
    · intro x hx y hy
      rw [hAlast] at hx
      rw [hB_head] at hy
      simp only [Option.mem_def, Option.some.injEq] at hx hy
      subst hx
      subst hy
      exact hj1
    · intro x hx y hy
      rw [List.getLast?_append, hB_last, some_or_eq] at hx
      rw [hC_head] at hy
      simp only [Option.mem_def, Option.some.injEq] at hx hy
      subst hx
      subst hy
      exact hj2
    · intro x hx y hy
      rw [List.getLast?_append, hC_last, some_or_eq] at hx
      rw [hD_head] at hy
      simp only [Option.mem_def, Option.some.injEq] at hx hy
      subst hx
      subst hy
      exact hj3
  · rw [List.head?_append, List.head?_append, List.head?_append, hAhead,
      some_or_eq, some_or_eq, some_or_eq]
  · rw [List.getLast?_append, hD_last, some_or_eq]

/-- helper: the third branch of the piecewise power-law evaluates to 0.85
at the 90th-percentile value when the 75-90 band is at least the epsilon
guard wide. -/
theorem branch3_eval (mag p25v p75v p90v maxv : ℝ) (h1 : p25v ≤ p75v)
    (h2 : 0.001 ≤ p90v - p75v) (h3 : mag = p90v) :
    min (if mag ≤ p25v then (mag / max p25v 0.001) * 0.2
      else if mag ≤ p75v then
        0.2 + ((mag - p25v) / max (p75v - p25v) 0.001) ^ (1.5 : ℝ) * 0.4
      else if mag ≤ p90v then
        0.6 + ((mag - p75v) / max (p90v - p75v) 0.001) ^ (2.0 : ℝ) * 0.25
      else
        0.85 + ((mag - p90v) / max (maxv - p90v) 0.001) ^ (3.0 : ℝ) * 0.15) 1
      = 0.85 := by
  rw [if_neg (by linarith), if_neg (by linarith), if_pos (le_of_eq h3)]
  rw [h3, max_eq_left h2, div_self (show p90v - p75v ≠ 0 by linarith)]
  rw [Real.one_rpow]
  norm_num

/-- C1: with frame_size 1024, target_fps 120 and assumed sample rate 44100,
`target_frames = floor(len*120/44100)`, `hop_size = floor(len/target_frames)`
when `target_frames > 0` and `1024` otherwise, `hop_size ≥ 1` always, and the
number of stored AudioFrames is `0` for `len < 1024` and
`floor((len-1024)/hop_size) + 1` otherwise: the span-fits-buffer guard never
drops a computed frame. -/
theorem frame_segmentation_correct (samples : List ℤ) :
    1 ≤ hop_size samples.length ∧
    target_frames samples.length = samples.length * 120 / 44100 ∧
    (0 < target_frames samples.length →
      hop_size samples.length = samples.length / target_frames samples.length) ∧
    (target_frames samples.length = 0 → hop_size samples.length = 1024) ∧
    (samples.length < 1024 → frame_count samples.length = 0) ∧
    (1024 ≤ samples.length →
      frame_count samples.length
        = (samples.length - 1024) / hop_size samples.length + 1) ∧
    (process_audio_frames samples).length = frame_count samples.length := by
  refine ⟨hop_size_pos samples.length, target_frames_eq samples.length,
    ?_, ?_, ?_, ?_, ?_⟩
  · intro h
    rw [hop_size, if_pos h]
  · intro h
    rw [hop_size, if_neg (by omega)]
  · intro h
    rw [frame_count, if_neg (by omega)]
  · intro h
    rw [frame_count, if_pos h]
  · rw [process_audio_frames]
    rw [length_filterMap_of_isSome]
    · exact List.length_range (frame_count samples.length)
    · intro i hi
      simp only [List.mem_range] at hi
      have hfits : i * hop_size samples.length + 1024 ≤ samples.length := by
        by_cases hbig : 1024 ≤ samples.length
        · rw [frame_count, if_pos hbig] at hi
          have hile : i ≤ (samples.length - 1024) / hop_size samples.length := by
            omega
          have h1 : i * hop_size samples.length
              ≤ (samples.length - 1024) / hop_size samples.length
                  * hop_size samples.length :=
            Nat.mul_le_mul_right _ hile
          have h2 : (samples.length - 1024) / hop_size samples.length
              * hop_size samples.length ≤ samples.length - 1024 :=
            Nat.div_mul_le_self _ _
          omega
        · rw [frame_count, if_neg hbig] at hi
          omega
      rw [if_pos hfits]
      rfl

/-- C1 witness: the segmentation theorem instantiated at a concrete buffer of
2000 zero samples (target_frames = 5, hop_size = 400, frame_count = 3). -/
theorem frame_segmentation_correct_witness :
    1 ≤ hop_size (List.replicate 2000 (0 : ℤ)).length ∧
    target_frames (List.replicate 2000 (0 : ℤ)).length
      = (List.replicate 2000 (0 : ℤ)).length * 120 / 44100 ∧
    (0 < target_frames (List.replicate 2000 (0 : ℤ)).length →
      hop_size (List.replicate 2000 (0 : ℤ)).length
        = (List.replicate 2000 (0 : ℤ)).length
            / target_frames (List.replicate 2000 (0 : ℤ)).length) ∧
    (target_frames (List.replicate 2000 (0 : ℤ)).length = 0 →
      hop_size (List.replicate 2000 (0 : ℤ)).length = 1024) ∧
    ((List.replicate 2000 (0 : ℤ)).length < 1024 →
      frame_count (List.replicate 2000 (0 : ℤ)).length = 0) ∧
    (1024 ≤ (List.replicate 2000 (0 : ℤ)).length →
      frame_count (List.replicate 2000 (0 : ℤ)).length
        = ((List.replicate 2000 (0 : ℤ)).length - 1024)
            / hop_size (List.replicate 2000 (0 : ℤ)).length + 1) ∧
    (process_audio_frames (List.replicate 2000 (0 : ℤ))).length
      = frame_count (List.replicate 2000 (0 : ℤ)).length :=
  frame_segmentation_correct (List.replicate 2000 (0 : ℤ))

/-- C2: for every vector of non-negative raw magnitudes, every output bar
value of the percentile-based scaling lies in [0, 1]. -/
theorem dynamic_scaling_bounded (raw : List ℝ) (hnn : ∀ x ∈ raw, 0 ≤ x) :
    ∀ y ∈ apply_dynamic_scaling raw raw.length, 0 ≤ y ∧ y ≤ 1 := by
  intro y hy
  simp only [apply_dynamic_scaling, List.mem_map, List.mem_range] at hy
  obtain ⟨i, hi, rfl⟩ := hy
  have hmag : 0 ≤ raw.getD i 0 := by
    rw [List.getD_eq_getElem raw 0 hi]
    exact hnn _ (List.getElem_mem hi)
  refine ⟨le_min ?_ zero_le_one, min_le_right _ _⟩
  set p25_val := (List.insertionSort (· ≤ ·) raw).getD ⌊(raw.length : ℝ) * 0.25⌋₊ 0
  set p75_val := (List.insertionSort (· ≤ ·) raw).getD ⌊(raw.length : ℝ) * 0.75⌋₊ 0
  set p90_val := (List.insertionSort (· ≤ ·) raw).getD ⌊(raw.length : ℝ) * 0.90⌋₊ 0
  set max_val := ((List.insertionSort (· ≤ ·) raw).getLast?).getD 0
  split_ifs with h1 h2 h3
  · have hden : (0 : ℝ) < max p25_val 0.001 :=
      lt_of_lt_of_le (by norm_num) (le_max_right _ _)
    have := div_nonneg hmag hden.le
    linarith
  · have hb : (0 : ℝ) ≤ (raw.getD i 0 - p25_val) / max (p75_val - p25_val) 0.001 :=
      div_nonneg (by linarith) (le_trans (by norm_num) (le_max_right _ _))
    have := Real.rpow_nonneg hb (1.5 : ℝ)
    linarith
  · have hb : (0 : ℝ) ≤ (raw.getD i 0 - p75_val) / max (p90_val - p75_val) 0.001 :=
      div_nonneg (by linarith) (le_trans (by norm_num) (le_max_right _ _))
    have := Real.rpow_nonneg hb (2.0 : ℝ)
    linarith
  · have hb : (0 : ℝ) ≤ (raw.getD i 0 - p90_val) / max (max_val - p90_val) 0.001 :=
      div_nonneg (by linarith) (le_trans (by norm_num) (le_max_right _ _))
    have := Real.rpow_nonneg hb (3.0 : ℝ)
    linarith

/-- C2 witness: the bound instantiated at the concrete input `[1]`. -/
theorem dynamic_scaling_bounded_witness :
    (∀ x ∈ [(1 : ℝ)], 0 ≤ x) ∧
    ∀ y ∈ apply_dynamic_scaling [(1 : ℝ)] [(1 : ℝ)].length, 0 ≤ y ∧ y ≤ 1 :=
  ⟨by simp, dynamic_scaling_bounded [(1 : ℝ)] (by simp)⟩

/-- C3: for every positive `num_bars`, the boundary table produced by
`generate_log_frequencies 20 20000 num_bars` has exactly `num_bars + 1`
strictly increasing entries, the first equal to 20.0 and the last equal to
20000.0 (exactly, in the exact-real model). -/
theorem boundary_table_correct (num_bars : ℕ) (hpos : 0 < num_bars) :
    (generate_log_frequencies 20 20000 num_bars).length = num_bars + 1 ∧
    List.Chain' (· < ·) (generate_log_frequencies 20 20000 num_bars) ∧
    (generate_log_frequencies 20 20000 num_bars).head? = some 20 ∧
    (generate_log_frequencies 20 20000 num_bars).getLast? = some 20000 := by
  by_cases h64 : num_bars = 64
  · subst h64
    have hdef : generate_log_frequencies 20 20000 64
        = ((List.range 5).map fun (i : ℕ) => 20 + ((i : ℝ) / 4) * 80)
          ++ geom_band 100 500 20 ++ geom_band 500 4000 24
          ++ geom_band 4000 20000 16 := by
      rw [generate_log_frequencies]
      norm_num
    have hA_chain : List.Chain' (· < ·)
        ((List.range 5).map fun (i : ℕ) => 20 + ((i : ℝ) / 4) * 80) := by
      apply chain_lt_map_range
      intro i hi
      push_cast
      linarith
    have hA_head : (((List.range 5).map
        fun (i : ℕ) => 20 + ((i : ℝ) / 4) * 80)).head? = some 20 := by
      rw [map_range_head _ 5 (by norm_num)]
      norm_num
    have hA_last : (((List.range 5).map
        fun (i : ℕ) => 20 + ((i : ℝ) / 4) * 80)).getLast? = some 100 := by
      rw [map_range_getLast _ 5 (by norm_num)]
      norm_num
    obtain ⟨hch, hhd, hlst⟩ := curated_assembly _ 20 24 16 (by norm_num)
      (by norm_num) (by norm_num) hA_chain hA_head hA_last
    exact ⟨by rw [hdef]; simp [geom_band_length], by rw [hdef]; exact hch,
      by rw [hdef]; exact hhd, by rw [hdef]; exact hlst⟩
  by_cases h32 : num_bars = 32
  · subst h32
    have hdef : generate_log_frequencies 20 20000 32
        = ((List.range 3).map fun (i : ℕ) => 20 + ((i : ℝ) / 2) * 80)
          ++ geom_band 100 500 10 ++ geom_band 500 4000 12
          ++ geom_band 4000 20000 8 := by
      rw [generate_log_frequencies]
      norm_num
    have hA_chain : List.Chain' (· < ·)
        ((List.range 3).map fun (i : ℕ) => 20 + ((i : ℝ) / 2) * 80) := by
      apply chain_lt_map_range
      intro i hi
      push_cast
      linarith
    have hA_head : (((List.range 3).map
        fun (i : ℕ) => 20 + ((i : ℝ) / 2) * 80)).head? = some 20 := by
      rw [map_range_head _ 3 (by norm_num)]
      norm_num
    have hA_last : (((List.range 3).map
        fun (i : ℕ) => 20 + ((i : ℝ) / 2) * 80)).getLast? = some 100 := by
      rw [map_range_getLast _ 3 (by norm_num)]
      norm_num
    obtain ⟨hch, hhd, hlst⟩ := curated_assembly _ 10 12 8 (by norm_num)
      (by norm_num) (by norm_num) hA_chain hA_head hA_last
    exact ⟨by rw [hdef]; simp [geom_band_length], by rw [hdef]; exact hch,
      by rw [hdef]; exact hhd, by rw [hdef]; exact hlst⟩
  by_cases h16 : num_bars = 16
  · subst h16
    have hdef : generate_log_frequencies 20 20000 16
        = ([20, 100] : List ℝ) ++ geom_band 100 500 5 ++ geom_band 500 4000 6
          ++ geom_band 4000 20000 4 := by
      rw [generate_log_frequencies]
      norm_num
    have hA_chain : List.Chain' (· < ·) ([20, 100] : List ℝ) := by
      simp only [List.chain'_cons, List.chain'_singleton, and_true]
      norm_num
    obtain ⟨hch, hhd, hlst⟩ := curated_assembly ([20, 100] : List ℝ) 5 6 4
      (by norm_num) (by norm_num) (by norm_num) hA_chain rfl rfl
    exact ⟨by rw [hdef]; simp [geom_band_length], by rw [hdef]; exact hch,
      by rw [hdef]; exact hhd, by rw [hdef]; exact hlst⟩
  · have hdef : generate_log_frequencies 20 20000 num_bars
        = (List.range (num_bars + 1)).map fun (i : ℕ) =>
            Real.exp (Real.log 20
              + (i : ℝ) * ((Real.log 20000 - Real.log 20) / (num_bars : ℝ))) := by
      rw [generate_log_frequencies, if_neg h64, if_neg h32, if_neg h16]
    have hne : ((num_bars : ℝ)) ≠ 0 := by
      exact_mod_cast hpos.ne'
    have hs : (0 : ℝ) < (Real.log 20000 - Real.log 20) / (num_bars : ℝ) := by
      apply div_pos
      · have := Real.log_lt_log (show (0 : ℝ) < 20 by norm_num)
          (show (20 : ℝ) < 20000 by norm_num)
        linarith
      · exact_mod_cast hpos
    refine ⟨?_, ?_, ?_, ?_⟩
    · rw [hdef]
      simp
    · rw [hdef]
      apply chain_lt_map_range
      intro i hi
      apply Real.exp_lt_exp.mpr
      have hstep : ((i : ℝ) + 1) * ((Real.log 20000 - Real.log 20) / (num_bars : ℝ))
          = (i : ℝ) * ((Real.log 20000 - Real.log 20) / (num_bars : ℝ))
            + (Real.log 20000 - Real.log 20) / (num_bars : ℝ) := by ring
      push_cast
      rw [hstep]
      linarith [hs]
    · rw [hdef, map_range_head _ _ (by omega)]
      norm_num [Real.exp_log]
    · rw [hdef, map_range_getLast _ _ (by omega)]
      congr 1
      simp only [Nat.add_sub_cancel]
      rw [mul_comm ((num_bars : ℝ)) _, div_mul_cancel₀ _ hne]
      have heq : Real.log 20 + (Real.log 20000 - Real.log 20) = Real.log 20000 := by
        ring
      rw [heq, Real.exp_log (by norm_num)]

/-- C3 witness: the boundary-table theorem instantiated at the curated bar
count 64. -/
theorem boundary_table_correct_witness :
    (generate_log_frequencies 20 20000 64).length = 64 + 1 ∧
    List.Chain' (· < ·) (generate_log_frequencies 20 20000 64) ∧
    (generate_log_frequencies 20 20000 64).head? = some 20 ∧
    (generate_log_frequencies 20 20000 64).getLast? = some 20000 :=
  boundary_table_correct 64 (by norm_num)

/-- C4 counterexample: on the non-negative input `[1]` the sorted-copy value
at the 90th-percentile rank (index `⌊1 * 0.90⌋ = 0`) is `1`, yet the scaler
maps it to `0.2` (all-equal inputs fall into the bottom-quartile branch),
not `0.85`. -/
theorem p90_rank_cex :
    (List.insertionSort (· ≤ ·) [(1 : ℝ)]).getD ⌊(([(1 : ℝ)].length : ℝ)) * 0.90⌋₊ 0 = 1 ∧
    apply_dynamic_scaling [(1 : ℝ)] [(1 : ℝ)].length = [0.2] ∧
    (0.2 : ℝ) ≠ 0.85 := by
  have hsort : List.insertionSort (· ≤ ·) [(1 : ℝ)] = [1] := by
    simp [List.insertionSort]
  have hfloor : ⌊(([(1 : ℝ)].length : ℝ)) * 0.90⌋₊ = 0 := by
    rw [Nat.floor_eq_zero]
    norm_num
  refine ⟨by rw [hsort, hfloor]; rfl, ?_, by norm_num⟩
  unfold apply_dynamic_scaling
  rw [hsort]
  norm_num [List.range_succ, Nat.floor_eq_zero.mpr]

/-- C4 amended: whenever the sorted 90th-percentile-rank value exceeds the
75th-percentile-rank value by at least the epsilon guard 0.001, every raw
value equal to the 90th-percentile value maps to output exactly 0.85.
Without that gap (for example an all-equal input) the value falls into a
lower branch and maps below 0.85. -/
theorem p90_rank_maps_to_085 (raw : List ℝ) (i : ℕ) (hi : i < raw.length)
    (hgap : 0.001 ≤
      (List.insertionSort (· ≤ ·) raw).getD ⌊(raw.length : ℝ) * 0.90⌋₊ 0
        - (List.insertionSort (· ≤ ·) raw).getD ⌊(raw.length : ℝ) * 0.75⌋₊ 0)
    (hv : raw.getD i 0
      = (List.insertionSort (· ≤ ·) raw).getD ⌊(raw.length : ℝ) * 0.90⌋₊ 0) :
    (apply_dynamic_scaling raw raw.length).getD i 0 = 0.85 := by
  have hn : 0 < raw.length := by omega
  have hslen : (List.insertionSort (· ≤ ·) raw).length = raw.length :=
    (List.perm_insertionSort _ raw).length_eq
  have hcast : (0 : ℝ) < (raw.length : ℝ) := by exact_mod_cast hn
  have hfl : ⌊(raw.length : ℝ) * 0.25⌋₊ ≤ ⌊(raw.length : ℝ) * 0.75⌋₊ :=
    Nat.floor_le_floor (by nlinarith)
  have hidx75 : ⌊(raw.length : ℝ) * 0.75⌋₊ < raw.length := by
    rw [Nat.floor_lt (by positivity)]
    nlinarith
  have h2575 : (List.insertionSort (· ≤ ·) raw).getD ⌊(raw.length : ℝ) * 0.25⌋₊ 0
      ≤ (List.insertionSort (· ≤ ·) raw).getD ⌊(raw.length : ℝ) * 0.75⌋₊ 0 := by
    rw [List.getD_eq_getElem _ 0 (show ⌊(raw.length : ℝ) * 0.25⌋₊
      < (List.insertionSort (· ≤ ·) raw).length by omega)]
    rw [List.getD_eq_getElem _ 0 (show ⌊(raw.length : ℝ) * 0.75⌋₊
      < (List.insertionSort (· ≤ ·) raw).length by omega)]
    have hmono := (List.sorted_insertionSort (· ≤ ·) raw).rel_get_of_le
      (a := ⟨⌊(raw.length : ℝ) * 0.25⌋₊, by omega⟩)
      (b := ⟨⌊(raw.length : ℝ) * 0.75⌋₊, by omega⟩) (Fin.mk_le_mk.mpr hfl)
    simpa using hmono
  simp only [apply_dynamic_scaling]
  rw [List.getD_eq_getElem _ 0 (by simpa using hi), List.getElem_map,
    List.getElem_range]
  exact branch3_eval _ _ _ _ _ h2575 hgap hv

/-- C4 witness: the amended percentile-rank property at the concrete input
`[0, 0, 0, 0, 4]`, whose 90th-percentile rank is index 4 with value 4 and
whose 75th-percentile value is 0; position 4 maps to exactly 0.85. -/
theorem p90_rank_maps_to_085_witness :
    4 < [(0 : ℝ), 0, 0, 0, 4].length ∧
    (0.001 ≤
      (List.insertionSort (· ≤ ·) [(0 : ℝ), 0, 0, 0, 4]).getD
          ⌊(([(0 : ℝ), 0, 0, 0, 4].length : ℕ) : ℝ) * 0.90⌋₊ 0
        - (List.insertionSort (· ≤ ·) [(0 : ℝ), 0, 0, 0, 4]).getD
            ⌊(([(0 : ℝ), 0, 0, 0, 4].length : ℕ) : ℝ) * 0.75⌋₊ 0) ∧
    (apply_dynamic_scaling [(0 : ℝ), 0, 0, 0, 4]
      [(0 : ℝ), 0, 0, 0, 4].length).getD 4 0 = 0.85 := by
  have hsort : List.insertionSort (· ≤ ·) [(0 : ℝ), 0, 0, 0, 4] = [0, 0, 0, 0, 4] := by
    norm_num [List.insertionSort, List.orderedInsert]
  have hi90 : ⌊(([(0 : ℝ), 0, 0, 0, 4].length : ℕ) : ℝ) * 0.90⌋₊ = 4 := by
    norm_num [Nat.floor_eq_iff]
  have hi75 : ⌊(([(0 : ℝ), 0, 0, 0, 4].length : ℕ) : ℝ) * 0.75⌋₊ = 3 := by
    norm_num [Nat.floor_eq_iff]
  have hgap : 0.001 ≤
      (List.insertionSort (· ≤ ·) [(0 : ℝ), 0, 0, 0, 4]).getD
          ⌊(([(0 : ℝ), 0, 0, 0, 4].length : ℕ) : ℝ) * 0.90⌋₊ 0
        - (List.insertionSort (· ≤ ·) [(0 : ℝ), 0, 0, 0, 4]).getD
            ⌊(([(0 : ℝ), 0, 0, 0, 4].length : ℕ) : ℝ) * 0.75⌋₊ 0 := by
    rw [hsort, hi90, hi75]
    norm_num
  have hv : ([(0 : ℝ), 0, 0, 0, 4]).getD 4 0
      = (List.insertionSort (· ≤ ·) [(0 : ℝ), 0, 0, 0, 4]).getD
          ⌊(([(0 : ℝ), 0, 0, 0, 4].length : ℕ) : ℝ) * 0.90⌋₊ 0 := by
    rw [hsort, hi90]
  exact ⟨by norm_num, hgap,
    p90_rank_maps_to_085 [(0 : ℝ), 0, 0, 0, 4] 4 (by norm_num) hgap hv⟩

/-- C5 counterexample: with `bin_size = 1`, target `[5, 7]` and smoothing
factor `1.0` the output is `[5]`, not the target; with previous `[3, 3]`
(stale length) and factor `0.0` the output is `[0]`, not the previous
state.  The claim quantifies over arbitrary previous/target vectors and is
false for length-mismatched ones. -/
theorem smoother_identity_cex :
    smooth_interpolate 1 [(0 : ℝ)] [5, 7] 1 ≠ [5, 7] ∧
    smooth_interpolate 1 [(3 : ℝ), 3] [9] 0 ≠ [3, 3] := by
  constructor
  · intro h
    have hl := congrArg List.length h
    simp [smooth_interpolate] at hl
  · intro h
    have hl := congrArg List.length h
    simp [smooth_interpolate] at hl

/-- C5 amended: when the previous-state vector and the target vector both
have length `bin_size`, smoothing factor `1.0` yields exactly the target and
`0.0` yields exactly the previous state. -/
theorem smoother_endpoints (bin_size : ℕ) (previous_bars target_bars : List ℝ)
    (hp : previous_bars.length = bin_size) (ht : target_bars.length = bin_size) :
    smooth_interpolate bin_size previous_bars target_bars 1 = target_bars ∧
    smooth_interpolate bin_size previous_bars target_bars 0 = previous_bars := by
  constructor
  · apply List.ext_getElem
    · simp [smooth_interpolate, ht]
    · intro i h1 h2
      simp only [smooth_interpolate, hp, ht, ne_eq, not_true_eq_false, if_false,
        min_self, List.getElem_map, List.getElem_range, List.length_map,
        List.length_range] at h1 ⊢
      rw [if_pos h1, List.getD_eq_getElem target_bars 0 (by omega)]
      ring
  · apply List.ext_getElem
    · simp [smooth_interpolate, hp]
    · intro i h1 h2
      simp only [smooth_interpolate, hp, ht, ne_eq, not_true_eq_false, if_false,
        min_self, List.getElem_map, List.getElem_range, List.length_map,
        List.length_range] at h1 ⊢
      rw [if_pos h1, List.getD_eq_getElem previous_bars 0 (by omega)]
      ring

/-- C5 witness: the amended endpoint identities at `bin_size = 2`,
previous `[1, 2]`, target `[3, 4]`. -/
theorem smoother_endpoints_witness :
    smooth_interpolate 2 [(1 : ℝ), 2] [3, 4] 1 = [3, 4] ∧
    smooth_interpolate 2 [(1 : ℝ), 2] [3, 4] 0 = [1, 2] :=
  smoother_endpoints 2 [1, 2] [3, 4] rfl rfl

/-- C6: `get_frequency_bars` returns the stored bar frame when audio has
been processed and the index is in range, and otherwise an all-zero vector
of length `bin_size`; `get_total_frames` returns the analyzed-frame count,
and `0` when no audio has been processed. -/
theorem query_surface (app : App) (frame_index : ℕ) :
    (app.audio_processed = true → frame_index < app.frequency_bars.length →
      get_frequency_bars app frame_index = app.frequency_bars.getD frame_index []) ∧
    (app.audio_processed = false ∨ app.frequency_bars.length ≤ frame_index →
      get_frequency_bars app frame_index = List.replicate app.bin_size 0 ∧
      (get_frequency_bars app frame_index).length = app.bin_size) ∧
    (app.audio_processed = true → get_total_frames app = app.frequency_bars.length) ∧
    (app.audio_processed = false → get_total_frames app = 0) := by
  refine ⟨?_, ?_, ?_, ?_⟩
  · intro hp hi
    rw [get_frequency_bars, if_pos ⟨by simp [hp], hi⟩]
  · intro h
    have hzero : get_frequency_bars app frame_index = List.replicate app.bin_size 0 := by
      rw [get_frequency_bars, if_neg]
      rintro ⟨h1, h2⟩
      rcases h with h | h
      · simp [h] at h1
      · omega
    exact ⟨hzero, by rw [hzero, List.length_replicate]⟩
  · intro hp
    simp [get_total_frames, hp]
  · intro hp
    simp [get_total_frames, hp]

/-- C6 witness: the query surface at a state holding one analyzed frame
`[0.5]` with `bin_size = 1`, queried at index `0`, and at index `1`. -/
theorem query_surface_witness :
    (get_frequency_bars (App.mk [] [] [[0.5]] [0] true 1) 0 = [[(0.5 : ℝ)]].getD 0 []) ∧
    (get_frequency_bars (App.mk [] [] [[0.5]] [0] true 1) 1 = List.replicate 1 0) ∧
    get_total_frames (App.mk [] [] [[(0.5 : ℝ)]] [0] true 1) = 1 := by
  refine ⟨?_, ?_, ?_⟩
  · exact (query_surface (App.mk [] [] [[0.5]] [0] true 1) 0).1 rfl (by simp)
  · exact (((query_surface (App.mk [] [] [[0.5]] [0] true 1) 1).2.1 (Or.inr (by simp))).1)
  · exact (query_surface (App.mk [] [] [[0.5]] [0] true 1) 0).2.2.1 rfl

/-- C7: whenever `process_audio_file` returns an error (malformed header or
failed sample read), the state — audio frames, spectral results, bar
sequences and the audio-ready flag — is exactly what it was before the
call, and the query surface answers exactly as before. -/
theorem load_error_atomicity (app : App)
    (parse : Except String (WavSpec × Except String (List ℤ))) (e : String)
    (herr : (process_audio_file app parse).2 = Except.error e) :
    (process_audio_file app parse).1 = app ∧
    (∀ idx, get_frequency_bars ((process_audio_file app parse).1) idx
      = get_frequency_bars app idx) ∧
    get_total_frames ((process_audio_file app parse).1) = get_total_frames app := by
  have hfst : (process_audio_file app parse).1 = app := by
    rcases parse with e2 | ⟨spec, samples⟩
    · rfl
    · rcases samples with e2 | sample_vec
      · rfl
      · exfalso
        simp [process_audio_file] at herr
  exact ⟨hfst, fun idx => by rw [hfst], by rw [hfst]⟩

/-- C7 witness: a failing header parse against a state holding one analyzed
frame leaves that state bitwise intact. -/
theorem load_error_atomicity_witness :
    (process_audio_file (App.mk [] [] [[0.5]] [0] true 1)
        (Except.error "bad")).1 = App.mk [] [] [[0.5]] [0] true 1 ∧
    (∀ idx, get_frequency_bars
        ((process_audio_file (App.mk [] [] [[0.5]] [0] true 1)
          (Except.error "bad")).1) idx
      = get_frequency_bars (App.mk [] [] [[0.5]] [0] true 1) idx) ∧
    get_total_frames ((process_audio_file (App.mk [] [] [[0.5]] [0] true 1)
        (Except.error "bad")).1)
      = get_total_frames (App.mk [] [] [[0.5]] [0] true 1) :=
  load_error_atomicity (App.mk [] [] [[0.5]] [0] true 1) (Except.error "bad")
    ("Failed to read WAV file: " ++ "bad") rfl

/-- C8 counterexample: for a 1024-sample AudioFrame the stored SpectralFrame
holds 1024 magnitude values — the full transform, not the claimed
`N/2 = 512`: `process_fft` zips the complete real and imaginary outputs and
stores every bin; the upper half is only ignored later by the bar mapping. -/
theorem spectral_frame_length_cex :
    ((process_fft [List.replicate 1024 (0 : ℝ)]).getD 0 []).length = 1024 ∧
    (1024 : ℕ) ≠ 512 := by
  constructor
  · simp [process_fft]
  · decide

/-- C8 amended: the stored SpectralFrame has exactly as many magnitude
values as the AudioFrame (1024, the full transform); the upper mirror half
is discarded only at bar-mapping time — `map_fft_to_bars` reads bins
`[0, 512)` exclusively, so truncating a spectral frame to its first 512
bins never changes any bar output. -/
theorem spectral_frame_shape (frames : List (List ℝ)) (fft_frame : List ℝ)
    (sample_rate : ℕ) (freq_boundaries : List ℝ) (num_bars : ℕ) :
    (process_fft frames).length = frames.length ∧
    (∀ i, i < frames.length →
      ((process_fft frames).getD i []).length = (frames.getD i []).length) ∧
    map_fft_to_bars fft_frame sample_rate freq_boundaries num_bars
      = map_fft_to_bars (fft_frame.take 512) sample_rate freq_boundaries num_bars := by
  refine ⟨by simp [process_fft], ?_, ?_⟩
  · intro i hi
    rw [process_fft, List.getD_eq_getElem _ _ (by simpa using hi),
      List.getD_eq_getElem _ _ hi, List.getElem_map]
    simp
  · rw [map_fft_to_bars, map_fft_to_bars]
    by_cases hb : freq_boundaries.length < num_bars + 1
    · rw [if_pos hb, if_pos hb]
    · rw [if_neg hb, if_neg hb]
      congr 1
      apply List.map_congr_left
      intro bar_idx _
      have hset : ∀ bin_start bin_end : ℕ,
          (Finset.Icc bin_start bin_end).filter
            (fun bin_idx => bin_idx < 512 ∧ bin_idx < (fft_frame.take 512).length)
          = (Finset.Icc bin_start bin_end).filter
            (fun bin_idx => bin_idx < 512 ∧ bin_idx < fft_frame.length) := by
        intro bin_start bin_end
        apply Finset.filter_congr
        intro b _
        rw [List.length_take]
        constructor
        · rintro ⟨h1, h2⟩
          exact ⟨h1, by omega⟩
        · rintro ⟨h1, h2⟩
          exact ⟨h1, by omega⟩
      simp only [hset]
      have hgetD : ∀ b : ℕ, b < 512 → b < fft_frame.length →
          (fft_frame.take 512).getD b 0 = fft_frame.getD b 0 := by
        intro b h1 h2
        rw [List.getD_eq_getElem?_getD, List.getD_eq_getElem?_getD,
          List.getElem?_take, if_pos h1]
      congr 1
      congr 1
      apply Finset.sum_congr rfl
      intro b hb2
      rw [Finset.mem_filter] at hb2
      exact (hgetD b hb2.2.1 hb2.2.2).symm

/-- C8 witness: the amended shape property at one concrete 1024-sample
frame and a concrete 600-bin spectral frame. -/
theorem spectral_frame_shape_witness :
    (process_fft [List.replicate 1024 (0 : ℝ)]).length
      = [List.replicate 1024 (0 : ℝ)].length ∧
    (∀ i, i < [List.replicate 1024 (0 : ℝ)].length →
      ((process_fft [List.replicate 1024 (0 : ℝ)]).getD i []).length
        = ([List.replicate 1024 (0 : ℝ)].getD i []).length) ∧
    map_fft_to_bars (List.replicate 600 (1 : ℝ)) 44100
        (generate_log_frequencies 20 20000 64) 64
      = map_fft_to_bars ((List.replicate 600 (1 : ℝ)).take 512) 44100
          (generate_log_frequencies 20 20000 64) 64 :=
  spectral_frame_shape [List.replicate 1024 (0 : ℝ)] (List.replicate 600 (1 : ℝ))
    44100 (generate_log_frequencies 20 20000 64) 64

/-- C9 counterexample: for the frame holding 1024 copies of the minimum
16-bit sample `-32768`, the windowed sample at index 511 equals
`(-32768/32767) * 0.5 * (1 - cos(2*pi*511/1023))`, which is strictly below
`-1`: normalization divides by `i16::MAX = 32767`, so sample `-32768` has
magnitude above 1 and the Hann coefficient near the window centre does not
shrink it back into [-1, 1]. -/
theorem windowed_sample_range_cex :
    ¬ (∀ y ∈ apply_hann_window (List.replicate 1024 (-32768 : ℤ))
        (generate_hann_window 1024), -1 ≤ y ∧ y ≤ 1) := by
  intro h
  have hlen : (apply_hann_window (List.replicate 1024 (-32768 : ℤ))
      (generate_hann_window 1024)).length = 1024 := by
    rw [apply_hann_window, List.length_zipWith, List.length_replicate,
      generate_hann_window, List.length_map, List.length_range, min_self]
  have h511 : (511 : ℕ) < (apply_hann_window (List.replicate 1024 (-32768 : ℤ))
      (generate_hann_window 1024)).length := by omega
  have hval : (apply_hann_window (List.replicate 1024 (-32768 : ℤ))
      (generate_hann_window 1024))[511] =
      (((-32768 : ℤ) : ℝ) / 32767) *
        (0.5 * (1 - Real.cos ((2 * Real.pi * ((511 : ℕ) : ℝ)) / ((1024 - 1 : ℕ) : ℝ)))) := by
    simp only [apply_hann_window, generate_hann_window, List.getElem_zipWith,
      List.getElem_replicate, List.getElem_map, List.getElem_range]
  have hmem := h _ (List.getElem_mem h511)
  rw [hval] at hmem
  have hcos : Real.cos ((2 * Real.pi * ((511 : ℕ) : ℝ)) / ((1024 - 1 : ℕ) : ℝ))
      = -Real.cos (Real.pi / 1023) := by
    have harg : (2 * Real.pi * ((511 : ℕ) : ℝ)) / ((1024 - 1 : ℕ) : ℝ)
        = Real.pi - Real.pi / 1023 := by
      push_cast
      ring
    rw [harg, Real.cos_pi_sub]
  rw [hcos] at hmem
  have hpi : Real.pi < 3.15 := Real.pi_lt_d2
  have hpi0 : (0 : ℝ) < Real.pi := Real.pi_pos
  have hpisq : Real.pi ^ 2 < 9.9225 := by nlinarith
  have hqb : (1 : ℝ) - (Real.pi / 1023) ^ 2 / 2 ≤ Real.cos (Real.pi / 1023) :=
    Real.one_sub_sq_div_two_le_cos
  have hx2 : (Real.pi / 1023) ^ 2 / 2 ≤ 9.9225 / 2093058 := by
    have heq : (Real.pi / 1023) ^ 2 / 2 = Real.pi ^ 2 / 2093058 := by ring
    rw [heq]
    linarith
  have hclose : (32767 : ℝ) / 16384 < 1 + Real.cos (Real.pi / 1023) := by
    linarith
  have hlt : ((-32768 : ℤ) : ℝ) / 32767 *
      (0.5 * (1 - -Real.cos (Real.pi / 1023))) < -1 := by
    push_cast
    linarith
  linarith [hmem.1]

/-- C9 amended: for every input frame of signed 16-bit samples, every
windowed sample lies in [-32768/32767, 1]; samples of value `-32768`
normalize to magnitude 32768/32767 > 1, so the lower endpoint is
-32768/32767, not -1. -/
theorem windowed_sample_range (frame : List ℤ)
    (hs : ∀ s ∈ frame, -32768 ≤ s ∧ s ≤ 32767) :
    ∀ y ∈ apply_hann_window frame (generate_hann_window 1024),
      -(32768 / 32767) ≤ y ∧ y ≤ 1 := by
  intro y hy
  rw [apply_hann_window] at hy
  obtain ⟨a, ha, w, hw, rfl⟩ :=
    exists_of_mem_zipWith (fun (s : ℤ) (w : ℝ) => ((s : ℝ) / 32767) * w)
      frame (generate_hann_window 1024) y hy
  obtain ⟨ha1, ha2⟩ := hs a ha
  obtain ⟨hw1, hw2⟩ := hann_window_coeff_bounds 1024 w hw
  have ha1' : (-32768 : ℝ) ≤ (a : ℝ) := by exact_mod_cast ha1
  have ha2' : ((a : ℝ)) ≤ 32767 := by exact_mod_cast ha2
  have hx1 : (-32768 : ℝ) / 32767 ≤ (a : ℝ) / 32767 :=
    (div_le_div_iff_of_pos_right (by norm_num)).mpr ha1'
  have hx2 : ((a : ℝ)) / 32767 ≤ 1 := by
    rw [div_le_one (by norm_num)]
    exact ha2'
  constructor
  · have k1 : (0 : ℝ) ≤ ((a : ℝ) / 32767 + 32768 / 32767) * w :=
      mul_nonneg (by linarith) hw1
    have k2 : (0 : ℝ) ≤ (32768 / 32767) * (1 - w) :=
      mul_nonneg (by norm_num) (by linarith)
    nlinarith
  · have k3 : (0 : ℝ) ≤ (1 - (a : ℝ) / 32767) * w :=
      mul_nonneg (by linarith) hw1
    nlinarith

/-- C9 witness: the amended range bound at the all-zero frame of length 4. -/
theorem windowed_sample_range_witness :
    (∀ s ∈ List.replicate 4 (0 : ℤ), -32768 ≤ s ∧ s ≤ 32767) ∧
    ∀ y ∈ apply_hann_window (List.replicate 4 (0 : ℤ)) (generate_hann_window 1024),
      -(32768 / 32767) ≤ y ∧ y ≤ 1 :=
  ⟨by decide, windowed_sample_range (List.replicate 4 (0 : ℤ)) (by decide)⟩

/-- helper: the smoothing step writes 0.0 into every output slot at or
beyond the target's length (the freshly zeroed output vector is only
written on `[0, min bin_size target.len)`). -/
theorem smooth_interpolate_zero_fill (bin_size : ℕ)
    (previous_bars target_bars : List ℝ) (s : ℝ) (j : ℕ)
    (hj : target_bars.length ≤ j) :
    (smooth_interpolate bin_size previous_bars target_bars s).getD j 0 = 0 := by
  by_cases hjn : j < bin_size
  · rw [List.getD_eq_getElem _ 0 (by simp [smooth_interpolate, hjn])]
    simp only [smooth_interpolate, List.getElem_map, List.getElem_range]
    rw [if_neg (by omega)]
  · rw [List.getD_eq_getElem?_getD, List.getElem?_eq_none (by simp [smooth_interpolate]; omega)]
    rfl

/-- C10: `set_bin_size` leaves `previous_bars` with length exactly the new
`bin_size`; the smoothing step always produces a vector of length exactly
`bin_size` regardless of stale input lengths, with every slot at or beyond
the target's length filled with 0.0; that vector (which becomes the new
`previous_bars` when audio is processed) is what `render` hands to the
renderer, zero-filled beyond the stored target frame's length. -/
theorem smoothing_state_length (app : App) (n : ℕ)
    (previous_bars target_bars : List ℝ) (s : ℝ) (frame_index : ℕ) :
    (set_bin_size app n).previous_bars.length = (set_bin_size app n).bin_size ∧
    (smooth_interpolate n previous_bars target_bars s).length = n ∧
    (∀ j, target_bars.length ≤ j →
      (smooth_interpolate n previous_bars target_bars s).getD j 0 = 0) ∧
    ((render app frame_index s).2).length = app.bin_size ∧
    (app.audio_processed = true →
      ((render app frame_index s).1).previous_bars.length
        = ((render app frame_index s).1).bin_size) ∧
    (app.audio_processed = true → frame_index < app.frequency_bars.length →
      ∀ j, (app.frequency_bars.getD frame_index []).length ≤ j →
        ((render app frame_index s).2).getD j 0 = 0) := by
  refine ⟨by simp [set_bin_size], by simp [smooth_interpolate],
    fun j hj => smooth_interpolate_zero_fill n previous_bars target_bars s j hj,
    ?_, ?_, ?_⟩
  · by_cases hp : app.audio_processed
    · simp [render, hp, smooth_interpolate]
    · simp [render, hp]
  · intro hp
    simp [render, hp, smooth_interpolate]
  · intro hp hin j hj
    have hsnd : (render app frame_index s).2
        = smooth_interpolate app.bin_size app.previous_bars
            (app.frequency_bars.getD frame_index []) s := by
      simp [render, hp, hin]
    rw [hsnd]
    exact smooth_interpolate_zero_fill app.bin_size app.previous_bars
      (app.frequency_bars.getD frame_index []) s j hj

/-- C10 witness: the length-and-zero-fill invariant at a concrete processed
state with a stale previous-bars vector of length 3, `bin_size = 2` and a
stored target frame of length 1. -/
theorem smoothing_state_length_witness :
    (set_bin_size (App.mk [] [] [[1], [2]] [0, 0, 0] true 2) 2).previous_bars.length
      = (set_bin_size (App.mk [] [] [[1], [2]] [0, 0, 0] true 2) 2).bin_size ∧
    (smooth_interpolate 2 [(0 : ℝ), 0, 0] [9] (1 / 2)).length = 2 ∧
    (∀ j, [(9 : ℝ)].length ≤ j →
      (smooth_interpolate 2 [(0 : ℝ), 0, 0] [9] (1 / 2)).getD j 0 = 0) ∧
    ((render (App.mk [] [] [[1], [2]] [0, 0, 0] true 2) 0 (1 / 2)).2).length
      = (App.mk [] [] [[(1 : ℝ)], [2]] [0, 0, 0] true 2).bin_size ∧
    ((App.mk [] [] [[(1 : ℝ)], [2]] [0, 0, 0] true 2).audio_processed = true →
      ((render (App.mk [] [] [[1], [2]] [0, 0, 0] true 2) 0 (1 / 2)).1).previous_bars.length
        = ((render (App.mk [] [] [[1], [2]] [0, 0, 0] true 2) 0 (1 / 2)).1).bin_size) ∧
    ((App.mk [] [] [[(1 : ℝ)], [2]] [0, 0, 0] true 2).audio_processed = true →
      0 < (App.mk [] [] [[(1 : ℝ)], [2]] [0, 0, 0] true 2).frequency_bars.length →
      ∀ j, ((App.mk [] [] [[(1 : ℝ)], [2]] [0, 0, 0] true 2).frequency_bars.getD 0 []).length ≤ j →
        ((render (App.mk [] [] [[1], [2]] [0, 0, 0] true 2) 0 (1 / 2)).2).getD j 0 = 0) :=
  smoothing_state_length (App.mk [] [] [[1], [2]] [0, 0, 0] true 2) 2
    [0, 0, 0] [9] (1 / 2) 0

end Viber
